import Mathlib

/-!
Verification of the chain-search engine of the autoconvert2 element
(gstautoconvert2.c): the catalog indexer, the odometer chain generator and
the chain validators.

Embedding conventions:

* A capability set (GstCaps) is an opaque value of a type parameter alpha;
  gst_caps_can_intersect is an opaque boolean parameter ci, exactly as the C
  code treats it (the search never inspects caps otherwise).
* A pad template is its direction plus its static caps; a factory is its
  list of static pad templates (the only data find_pad_templates reads).
* The factory index (catalog) is a list of FactoryListEntry, head first,
  mirroring the GSList.  A generator cursor (a GSList pointer into the
  factory index) is modelled by the index of the node it points at, so the
  head of the list is cursor 0 and a nil next pointer is index = length.
  The iterator array of a ChainGenerator is a list of cursors, position 0
  first.  Pointer equality of entry data (used by the duplicate validator)
  coincides with cursor-index equality because each entry is a separate
  allocation.
* The int arithmetic of validate_non_consecutive_elements computes
  chain_length - 2 in guint and converts to int; for the lengths 0 and 1
  this wraps to -2 and -1 on the target platform, which the embedding
  reproduces as integer subtraction on Int.
* The unbounded for-loop of generate_next_chain is embedded with explicit
  fuel (genLoopFuel); the theorems prove that fuel K ^ N always suffices,
  so the fueled function decides the loop completely.
-/

namespace AutoConvert2

/-- Direction of a static pad template (GstPadDirection restricted to the
two values a registered template may carry). -/
inductive PadDirection : Type
  | sink
  | src
deriving DecidableEq, Repr

/-- A static pad template: its direction and its static caps. -/
structure PadTemplate (α : Type) : Type where
  direction : PadDirection
  static_caps : α
deriving DecidableEq, Repr

/-- An entry of the factory index, as built by create_factory_index_entry:
the two selected pad templates, their resolved caps, and the factory it was
built from (modelled by the factory's template list). -/
structure FactoryListEntry (α : Type) : Type where
  sink_pad_template : PadTemplate α
  src_pad_template : PadTemplate α
  sink_caps : α
  src_caps : α
  factory : List (PadTemplate α)
deriving DecidableEq, Repr

instance {α : Type} [Inhabited α] : Inhabited (PadTemplate α) :=
  ⟨{ direction := PadDirection.sink, static_caps := default }⟩

instance {α : Type} [Inhabited α] : Inhabited (FactoryListEntry α) :=
  ⟨{ sink_pad_template := default
     src_pad_template := default
     sink_caps := default
     src_caps := default
     factory := [] }⟩

/-- The template-scanning loop of find_pad_templates: walk the template
list; for each template select the slot for its direction; if the slot is
already occupied abort (none); otherwise fill it and continue.  Returns the
final pair of slots on normal loop exit. -/
def find_pad_templates_loop {α : Type} :
    List (PadTemplate α) → Option (PadTemplate α) → Option (PadTemplate α) →
    Option (Option (PadTemplate α) × Option (PadTemplate α))
  | [], snkT, srcT => some (snkT, srcT)
  | t :: rest, snkT, srcT =>
    match t.direction with
    | PadDirection.sink =>
      match snkT with
      | some _ => none
      | none => find_pad_templates_loop rest (some t) srcT
    | PadDirection.src =>
      match srcT with
      | some _ => none
      | none => find_pad_templates_loop rest snkT (some t)

/-- find_pad_templates: returns the unique sink template and the unique src
template of the factory, or none when a direction has zero or more than one
template. -/
def find_pad_templates {α : Type} (factory : List (PadTemplate α)) :
    Option (PadTemplate α × PadTemplate α) :=
  match find_pad_templates_loop factory none none with
  | some (some snkT, some srcT) => some (snkT, srcT)
  | _ => none

/-- create_factory_index_entry: records the two templates, resolves their
static caps (gst_static_caps_get is the identity in this embedding) and
keeps a reference to the factory. -/
def create_factory_index_entry {α : Type} (factory : List (PadTemplate α))
    (snkT srcT : PadTemplate α) : FactoryListEntry α :=
  { sink_pad_template := snkT
    src_pad_template := srcT
    sink_caps := snkT.static_caps
    src_caps := srcT.static_caps
    factory := factory }

/-- The indexing loop of index_factories: for each factory listed by
get_factories, in enumeration order, prepend an index entry when
find_pad_templates succeeds (g_slist_prepend puts it at the head). -/
def index_factories {α : Type} (factories : List (List (PadTemplate α))) :
    List (FactoryListEntry α) :=
  factories.foldl
    (fun idx f =>
      match find_pad_templates f with
      | some (snkT, srcT) => create_factory_index_entry f snkT srcT :: idx
      | none => idx)
    []

/-- init_chain_generator: every one of the length iterators starts at the
head of the factory index (cursor 0). -/
def init_chain_generator (length : Nat) : List Nat :=
  List.replicate length 0

/-- One boundary test of validate_chain_caps at a given depth: the src caps
side is the chain sink caps at depth 0, otherwise the src caps of the entry
at position depth - 1; the sink caps side is the chain src caps at depth =
chain length, otherwise the sink caps of the entry at position depth. -/
def boundaryOk {α : Type} [Inhabited α] (ci : α → α → Bool)
    (chain_sink_caps chain_src_caps : α) (cat : List (FactoryListEntry α))
    (chain : List Nat) (depth : Nat) : Bool :=
  let bsrc : α :=
    if depth = 0 then chain_sink_caps
    else (cat.getD (chain.getD (depth - 1) 0) default).src_caps
  let bsink : α :=
    if depth = chain.length then chain_src_caps
    else (cat.getD (chain.getD depth 0) default).sink_caps
  ci bsrc bsink

/-- The do-while loop of validate_chain_caps: check the boundary at depth;
on failure return depth; otherwise decrement and continue, returning -1
after the boundary at depth 0 succeeds. -/
def capsScan (ok : Nat → Bool) : Nat → Int
  | 0 => if ok 0 then -1 else 0
  | d + 1 => if ok (d + 1) then capsScan ok d else ((d : Int) + 1)

/-- validate_chain_caps: walk the chain boundaries from chain_length down
to 0 and return the first failing boundary, or -1 when every boundary can
intersect. -/
def validate_chain_caps {α : Type} [Inhabited α] (ci : α → α → Bool)
    (chain_sink_caps chain_src_caps : α) (cat : List (FactoryListEntry α))
    (chain : List Nat) : Int :=
  capsScan (boundaryOk ci chain_sink_caps chain_src_caps cat chain) chain.length

/-- The scanning loop of validate_non_consecutive_elements, from position
d downward: return the first position whose entry equals the entry one
deeper, or -1 when the loop runs out. -/
def dupScanAux (chain : List Nat) : Nat → Int
  | 0 => if chain.getD 0 0 = chain.getD 1 0 then 0 else -1
  | d + 1 =>
    if chain.getD (d + 1) 0 = chain.getD (d + 2) 0 then ((d : Int) + 1)
    else dupScanAux chain d

/-- validate_non_consecutive_elements: scan from chain_length - 2 down to 0
for two consecutive positions holding the same entry.  The initial depth is
computed as chain_length - 2 in unsigned arithmetic and stored in an int,
which yields -1 for chain_length = 1 (no scan, fully valid) and -2 for
chain_length = 0. -/
def validate_non_consecutive_elements (chain : List Nat) : Int :=
  match chain.length with
  | 0 => -2
  | 1 => -1
  | n + 2 => dupScanAux chain n

/-- gst_auto_convert2_validate_chain: run the validators in order
(validate_chain_caps first, validate_non_consecutive_elements second); the
first one returning a value other than -1 short-circuits the pipeline and
its value is the result; -1 when both return -1. -/
def gst_auto_convert2_validate_chain {α : Type} [Inhabited α]
    (ci : α → α → Bool) (sink_caps src_caps : α)
    (cat : List (FactoryListEntry α)) (chain : List Nat) : Int :=
  if validate_chain_caps ci sink_caps src_caps cat chain ≠ -1 then
    validate_chain_caps ci sink_caps src_caps cat chain
  else if validate_non_consecutive_elements chain ≠ -1 then
    validate_non_consecutive_elements chain
  else -1

/-- The carry loop of advance_chain_generator, acting on the iterators from
the starting depth upward: step the cursor to the next node; if it is still
inside the list stop, otherwise reset it to the head and carry on upward;
none when the carry walks off the last position. -/
def advanceFrom (K : Nat) : List Nat → Option (List Nat)
  | [] => none
  | c :: rest =>
    if c + 1 < K then some ((c + 1) :: rest)
    else
      match advanceFrom K rest with
      | some rest' => some (0 :: rest')
      | none => none

/-- advance_chain_generator: advance the iterators from starting_depth with
carry; on success additionally reset every iterator below starting_depth to
the head of the factory index; none when every permutation has been
tried. -/
def advance_chain_generator (K : Nat) (starting_depth : Nat)
    (iterators : List Nat) : Option (List Nat) :=
  match advanceFrom K (iterators.drop starting_depth) with
  | none => none
  | some rest' => some (List.replicate starting_depth 0 ++ rest')

/-- The depth handed to advance_chain_generator by generate_next_chain: the
validator result, decremented by one when positive. -/
def prunedDepth (v : Int) : Nat :=
  (if 0 < v then v - 1 else v).toNat

/-- The for-loop of generate_next_chain, with explicit fuel: validate the
current iterators; a negative validator result yields the current chain;
otherwise advance from the pruned depth, yielding exhaustion (some none)
when the generator is done.  The outer none marks fuel exhaustion only;
the termination theorem shows fuel K ^ N suffices. -/
def genLoopFuel {α : Type} [Inhabited α] (ci : α → α → Bool)
    (snk_caps src_caps : α) (cat : List (FactoryListEntry α)) :
    Nat → List Nat → Option (Option (List Nat))
  | 0, _ => none
  | fuel + 1, s =>
    if gst_auto_convert2_validate_chain ci snk_caps src_caps cat s < 0 then
      some (some s)
    else
      match advance_chain_generator cat.length
          (prunedDepth (gst_auto_convert2_validate_chain ci snk_caps src_caps cat s))
          s with
      | none => some none
      | some s' => genLoopFuel ci snk_caps src_caps cat fuel s'

/-- generate_next_chain, called on a freshly initialized generator of the
given length: an empty factory index returns failure immediately; otherwise
the loop starts by validating the initial iterators (the init flag) and
then alternates pruned advances with validation.  some (some c) is a
successful return with chain c, some none is the FALSE return (generator
exhausted), none is out of fuel (never reached, by the termination
theorem). -/
def generate_next_chain {α : Type} [Inhabited α] (ci : α → α → Bool)
    (snk_caps src_caps : α) (cat : List (FactoryListEntry α))
    (length : Nat) : Option (Option (List Nat)) :=
  match cat with
  | [] => some none
  | _ :: _ =>
    genLoopFuel ci snk_caps src_caps cat (cat.length ^ length)
      (init_chain_generator length)

/-- Value of an iterator list read as a mixed-radix number in base K with
position 0 the least significant digit; advance_chain_generator from depth
0 is exactly the successor in this order. -/
def toNum (K : Nat) : List Nat → Nat
  | [] => 0
  | c :: rest => c + K * toNum K rest

/-- Decode a mixed-radix number into an iterator list of the given length
(inverse of toNum on states whose digits are below K). -/
def decode (K : Nat) : Nat → Nat → List Nat
  | 0, _ => []
  | N + 1, n => n % K :: decode K N (n / K)

/-- A well-formed generator state over a catalog of size K for chains of
length N: N cursors, each pointing into the catalog. -/
def ValidState (K N : Nat) (s : List Nat) : Prop :=
  s.length = N ∧ ∀ d ∈ s, d < K

/-- Modelled from the spec: the naive enumerator that the pruning search is
compared against.  It visits the candidate chains of length N in generator
order (decode 0, decode 1, ...), runs the validator pipeline on each, and
returns the first accepted candidate; none after all K ^ N candidates were
visited without success. -/
def naiveAux {α : Type} [Inhabited α] (ci : α → α → Bool)
    (snk_caps src_caps : α) (cat : List (FactoryListEntry α)) (N : Nat) :
    Nat → Nat → Option (List Nat)
  | 0, _ => none
  | cnt + 1, m =>
    let c := decode cat.length N m
    if gst_auto_convert2_validate_chain ci snk_caps src_caps cat c < 0 then
      some c
    else naiveAux ci snk_caps src_caps cat N cnt (m + 1)

/-- Modelled from the spec: first fully-valid candidate chain of length N
in full enumeration order, over all K ^ N candidates. -/
def naiveFirstValid {α : Type} [Inhabited α] (ci : α → α → Bool)
    (snk_caps src_caps : α) (cat : List (FactoryListEntry α)) (N : Nat) :
    Option (List Nat) :=
  naiveAux ci snk_caps src_caps cat N (cat.length ^ N) 0

/-- n-fold iteration of advance_chain_generator at a fixed starting depth;
none once the generator reports exhaustion. -/
def iterAdvance (K D : Nat) : Nat → List Nat → Option (List Nat)
  | 0, s => some s
  | n + 1, s =>
    match advance_chain_generator K D s with
    | none => none
    | some s' => iterAdvance K D n s'

/-! Mixed-radix arithmetic of the generator state. -/

lemma toNum_lt {K : Nat} : ∀ {s : List Nat}, (∀ d ∈ s, d < K) →
    toNum K s < K ^ s.length
  | [], _ => by simp [toNum]
  | c :: rest, h => by
    have hc : c < K := h c (by simp)
    have ih := toNum_lt (fun d hd => h d (List.mem_cons_of_mem _ hd))
    simp only [toNum, List.length_cons, pow_succ]
    calc c + K * toNum K rest < K + K * toNum K rest := by omega
      _ = K * (toNum K rest + 1) := by ring
      _ ≤ K * K ^ rest.length := Nat.mul_le_mul_left K ih
      _ = K ^ rest.length * K := Nat.mul_comm _ _

lemma decode_length (K : Nat) : ∀ (N n : Nat), (decode K N n).length = N
  | 0, _ => rfl
  | N + 1, n => by simp [decode, decode_length K N]

lemma decode_valid {K : Nat} (hK : 1 ≤ K) : ∀ (N n : Nat), ∀ d ∈ decode K N n, d < K
  | 0, n => by simp [decode]
  | N + 1, n => by
    intro d hd
    simp only [decode, List.mem_cons] at hd
    rcases hd with h | h
    · subst h; exact Nat.mod_lt _ hK
    · exact decode_valid hK N (n / K) d h

lemma toNum_decode {K : Nat} : ∀ {N n : Nat}, n < K ^ N →
    toNum K (decode K N n) = n := by
  intro N
  induction N with
  | zero => intro n h; simp [pow_zero] at h; simp [decode, toNum, h]
  | succ N ih =>
    intro n h
    have hK : 0 < K := by
      rcases Nat.eq_zero_or_pos K with h0 | h0
      · subst h0; simp [Nat.zero_pow] at h
      · exact h0
    have hdiv : n / K < K ^ N := by
      rw [Nat.div_lt_iff_lt_mul hK]
      calc n < K ^ (N + 1) := h
        _ = K ^ N * K := pow_succ K N
    simp only [decode, toNum, ih hdiv]
    exact Nat.mod_add_div n K

lemma decode_toNum {K : Nat} : ∀ {s : List Nat}, (∀ d ∈ s, d < K) →
    decode K s.length (toNum K s) = s
  | [], _ => rfl
  | c :: rest, h => by
    have hc : c < K := h c (by simp)
    have hK : 0 < K := Nat.lt_of_le_of_lt (Nat.zero_le c) hc
    have ih := decode_toNum (fun d hd => h d (List.mem_cons_of_mem _ hd))
    simp only [List.length_cons, decode, toNum]
    congr 1
    · rw [Nat.add_mul_mod_self_left]
      exact Nat.mod_eq_of_lt hc
    · rw [Nat.add_mul_div_left c _ hK, Nat.div_eq_of_lt hc, Nat.zero_add]
      exact ih

lemma toNum_injOn {K : Nat} {s t : List Nat} (hs : ∀ d ∈ s, d < K)
    (ht : ∀ d ∈ t, d < K) (hlen : s.length = t.length)
    (h : toNum K s = toNum K t) : s = t := by
  have h1 := decode_toNum hs
  have h2 := decode_toNum ht
  rw [← h1, ← h2, hlen, h]

lemma toNum_append (K : Nat) : ∀ (a b : List Nat),
    toNum K (a ++ b) = toNum K a + K ^ a.length * toNum K b
  | [], b => by simp [toNum]
  | c :: rest, b => by
    show c + K * toNum K (rest ++ b) =
      (c + K * toNum K rest) + K ^ (rest.length + 1) * toNum K b
    rw [toNum_append K rest b, pow_succ]
    ring

lemma toNum_replicate_zero (K d : Nat) : toNum K (List.replicate d 0) = 0 := by
  induction d with
  | zero => rfl
  | succ d ih => simp [List.replicate, toNum, ih]

lemma toNum_all_max {K : Nat} : ∀ {s : List Nat}, (∀ d ∈ s, d = K - 1) →
    1 ≤ K → toNum K s + 1 = K ^ s.length
  | [], _, _ => by simp [toNum]
  | c :: rest, h, hK => by
    have hc : c = K - 1 := h c (by simp)
    have ih := toNum_all_max (fun d hd => h d (List.mem_cons_of_mem _ hd)) hK
    simp only [toNum, List.length_cons, pow_succ, ← ih]
    subst hc
    obtain ⟨k, rfl⟩ : ∃ k, K = k + 1 := ⟨K - 1, by omega⟩
    simp only [Nat.add_sub_cancel]
    ring

lemma toNum_take_drop {K : Nat} {s : List Nat} {d : Nat} (hd : d ≤ s.length) :
    toNum K s = toNum K (s.take d) + K ^ d * toNum K (s.drop d) := by
  conv_lhs => rw [← List.take_append_drop d s]
  rw [toNum_append, List.length_take, Nat.min_eq_left hd]

lemma toNum_take_lt {K : Nat} {s : List Nat} (hs : ∀ x ∈ s, x < K) {d : Nat}
    (hd : d ≤ s.length) : toNum K (s.take d) < K ^ d := by
  have := toNum_lt (s := s.take d) (fun x hx => hs x (List.mem_of_mem_take hx))
  rwa [List.length_take, Nat.min_eq_left hd] at this

lemma drop_toNum_eq {K : Nat} {s : List Nat} (hs : ∀ x ∈ s, x < K) {d : Nat}
    (hd : d ≤ s.length) {h : Nat}
    (h1 : K ^ d * h ≤ toNum K s) (h2 : toNum K s < K ^ d * (h + 1)) :
    toNum K (s.drop d) = h := by
  have hdec := toNum_take_drop (K := K) hd
  have htk := toNum_take_lt hs hd
  set a := toNum K (s.take d)
  set b := toNum K (s.drop d)
  rcases Nat.lt_trichotomy b h with hlt | heq | hgt
  · exfalso
    have : b + 1 ≤ h := hlt
    have : K ^ d * (b + 1) ≤ K ^ d * h := Nat.mul_le_mul_left _ this
    have : toNum K s < K ^ d * h := by
      calc toNum K s = a + K ^ d * b := hdec
        _ < K ^ d + K ^ d * b := by omega
        _ = K ^ d * (b + 1) := by ring
        _ ≤ K ^ d * h := this
    omega
  · exact heq
  · exfalso
    have : h + 1 ≤ b := hgt
    have hm : K ^ d * (h + 1) ≤ K ^ d * b := Nat.mul_le_mul_left _ this
    have : K ^ d * (h + 1) ≤ toNum K s := by
      calc K ^ d * (h + 1) ≤ K ^ d * b := hm
        _ ≤ a + K ^ d * b := by omega
        _ = toNum K s := hdec.symm
    omega

lemma drop_eq_of_sandwich {K : Nat} {s t : List Nat} {d : Nat}
    (hs : ∀ x ∈ s, x < K) (ht : ∀ x ∈ t, x < K) (hlen : t.length = s.length)
    (hd : d ≤ s.length)
    (h1 : K ^ d * toNum K (s.drop d) ≤ toNum K t)
    (h2 : toNum K t < K ^ d * (toNum K (s.drop d) + 1)) :
    t.drop d = s.drop d := by
  have hdt : d ≤ t.length := hlen ▸ hd
  have heq : toNum K (t.drop d) = toNum K (s.drop d) := drop_toNum_eq ht hdt h1 h2
  exact toNum_injOn (fun x hx => ht x (List.mem_of_mem_drop hx))
    (fun x hx => hs x (List.mem_of_mem_drop hx))
    (by rw [List.length_drop, List.length_drop, hlen]) heq

/-! Behaviour of the carry loop and of advance_chain_generator. -/

lemma advanceFrom_eq_none_iff {K : Nat} : ∀ {u : List Nat}, (∀ d ∈ u, d < K) →
    (advanceFrom K u = none ↔ ∀ d ∈ u, d = K - 1)
  | [], _ => by simp [advanceFrom]
  | c :: rest, h => by
    have hc : c < K := h c (by simp)
    have ih := advanceFrom_eq_none_iff (fun d hd => h d (List.mem_cons_of_mem _ hd))
    by_cases hlt : c + 1 < K
    · simp only [advanceFrom, if_pos hlt]
      constructor
      · intro hcontra; cases hcontra
      · intro hall
        have := hall c (by simp)
        omega
    · have hc1 : c = K - 1 := by omega
      simp only [advanceFrom, if_neg hlt]
      cases hrest : advanceFrom K rest with
      | some rest' =>
        simp only []
        constructor
        · intro hcontra; cases hcontra
        · intro hall
          have : ∀ d ∈ rest, d = K - 1 :=
            fun d hd => hall d (List.mem_cons_of_mem _ hd)
          rw [ih.mpr this] at hrest
          cases hrest
      | none =>
        simp only []
        constructor
        · intro _
          intro d hd
          rcases List.mem_cons.mp hd with rfl | hd
          · exact hc1
          · exact (ih.mp hrest) d hd
        · intro _; trivial

lemma advanceFrom_some {K : Nat} : ∀ {u u' : List Nat}, (∀ d ∈ u, d < K) →
    advanceFrom K u = some u' →
    u'.length = u.length ∧ (∀ d ∈ u', d < K) ∧ toNum K u' = toNum K u + 1
  | [], _, _, h => by cases h
  | c :: rest, u', h, hadv => by
    have hc : c < K := h c (by simp)
    by_cases hlt : c + 1 < K
    · simp only [advanceFrom, if_pos hlt] at hadv
      cases hadv
      refine ⟨by simp, ?_, ?_⟩
      · intro d hd
        rcases List.mem_cons.mp hd with rfl | hd
        · exact hlt
        · exact h d (List.mem_cons_of_mem _ hd)
      · simp [toNum]; omega
    · have hc1 : c = K - 1 := by omega
      simp only [advanceFrom, if_neg hlt] at hadv
      cases hrest : advanceFrom K rest with
      | none => rw [hrest] at hadv; cases hadv
      | some rest' =>
        rw [hrest] at hadv
        cases hadv
        obtain ⟨hlen, hdig, hnum⟩ :=
          advanceFrom_some (fun d hd => h d (List.mem_cons_of_mem _ hd)) hrest
        refine ⟨by simp [hlen], ?_, ?_⟩
        · intro d hd
          rcases List.mem_cons.mp hd with rfl | hd
          · omega
          · exact hdig d hd
        · simp only [toNum, hnum, Nat.mul_add, Nat.mul_one]
          omega

lemma advanceFrom_some_spec {K : Nat} : ∀ {u u' : List Nat}, (∀ d ∈ u, d < K) →
    advanceFrom K u = some u' →
    ∃ j, j < u.length ∧ u.getD j 0 + 1 < K ∧
      (∀ i, i < j → u.getD i 0 = K - 1) ∧
      u' = List.replicate j 0 ++ (u.getD j 0 + 1) :: u.drop (j + 1)
  | [], _, _, h => by cases h
  | c :: rest, u', h, hadv => by
    by_cases hlt : c + 1 < K
    · simp only [advanceFrom, if_pos hlt] at hadv
      cases hadv
      exact ⟨0, by simp, by simpa [List.getD_cons_zero] using hlt,
        fun i hi => absurd hi (Nat.not_lt_zero i),
        by simp [List.getD_cons_zero]⟩
    · simp only [advanceFrom, if_neg hlt] at hadv
      cases hrest : advanceFrom K rest with
      | none => rw [hrest] at hadv; cases hadv
      | some rest' =>
        rw [hrest] at hadv
        cases hadv
        obtain ⟨j, hj, hdig, hmax, heq⟩ :=
          advanceFrom_some_spec (fun d hd => h d (List.mem_cons_of_mem _ hd)) hrest
        refine ⟨j + 1, by simpa using hj,
          by simpa [List.getD_cons_succ] using hdig, ?_, ?_⟩
        · intro i hi
          cases i with
          | zero =>
            have hc : c < K := h c (by simp)
            rw [List.getD_cons_zero]
            omega
          | succ i =>
            have := hmax i (by omega)
            rw [List.getD_cons_succ]
            exact this
        · simp only [List.replicate_succ, List.cons_append, List.getD_cons_succ,
            List.drop_succ_cons]
          rw [heq]

lemma advance_some {K N D : Nat} {s s' : List Nat}
    (hlen : s.length = N) (hdig : ∀ d ∈ s, d < K) (hD : D ≤ N)
    (h : advance_chain_generator K D s = some s') :
    s'.length = N ∧ (∀ d ∈ s', d < K) ∧
      toNum K s' = K ^ D * (toNum K (s.drop D) + 1) := by
  unfold advance_chain_generator at h
  cases hadv : advanceFrom K (s.drop D) with
  | none => rw [hadv] at h; cases h
  | some rest' =>
    rw [hadv] at h
    cases h
    obtain ⟨hl, hdig', hn⟩ :=
      advanceFrom_some (fun d hd => hdig d (List.mem_of_mem_drop hd)) hadv
    have hK : 1 ≤ K := by
      have hne : s.drop D ≠ [] := by
        intro hnil
        rw [hnil] at hadv
        cases hadv
      obtain ⟨x, hx⟩ := List.exists_mem_of_ne_nil _ hne
      have := hdig x (List.mem_of_mem_drop hx)
      omega
    refine ⟨?_, ?_, ?_⟩
    · rw [List.length_append, List.length_replicate, hl, List.length_drop]
      omega
    · intro d hd
      rcases List.mem_append.mp hd with hmem | hmem
      · have := (List.mem_replicate.mp hmem).2
        omega
      · exact hdig' _ hmem
    · rw [toNum_append, toNum_replicate_zero, List.length_replicate, hn]
      omega

lemma advance_none_iff {K D : Nat} {s : List Nat} (hdig : ∀ d ∈ s, d < K) :
    advance_chain_generator K D s = none ↔ ∀ d ∈ s.drop D, d = K - 1 := by
  unfold advance_chain_generator
  have hiff := advanceFrom_eq_none_iff
    (K := K) (u := s.drop D) (fun d hd => hdig d (List.mem_of_mem_drop hd))
  cases hadv : advanceFrom K (s.drop D) with
  | none => simpa [hadv] using hiff
  | some rest' =>
    rw [hadv] at hiff
    simp only []
    constructor
    · intro hcontra; cases hcontra
    · intro hall
      exact absurd (hiff.mpr hall) (by simp)

lemma advance_increases {K N D : Nat} {s s' : List Nat}
    (hlen : s.length = N) (hdig : ∀ d ∈ s, d < K) (hD : D ≤ N)
    (h : advance_chain_generator K D s = some s') :
    toNum K s < toNum K s' := by
  obtain ⟨_, _, hn⟩ := advance_some hlen hdig hD h
  have hdecomp := toNum_take_drop (K := K) (s := s) (d := D) (by omega)
  have htk := toNum_take_lt hdig (s := s) (d := D) (by omega)
  rw [hn, hdecomp]
  have : K ^ D * (toNum K (s.drop D) + 1) =
      K ^ D * toNum K (s.drop D) + K ^ D := by ring
  omega

/-! Characterization of the validator scanning loops. -/

lemma capsScan_ge (ok : Nat → Bool) : ∀ N, -1 ≤ capsScan ok N
  | 0 => by
    unfold capsScan
    split <;> omega
  | N + 1 => by
    unfold capsScan
    split
    · exact capsScan_ge ok N
    · omega

lemma capsScan_le (ok : Nat → Bool) : ∀ N, capsScan ok N ≤ (N : Int)
  | 0 => by
    unfold capsScan
    split <;> omega
  | N + 1 => by
    unfold capsScan
    split
    · have := capsScan_le ok N
      push_cast
      omega
    · push_cast
      omega

lemma capsScan_eq_neg_one_iff (ok : Nat → Bool) :
    ∀ N, (capsScan ok N = -1 ↔ ∀ b ≤ N, ok b = true)
  | 0 => by
    unfold capsScan
    split
    · rename_i h
      simp only [true_iff]
      intro b hb
      rw [Nat.le_zero.mp hb]
      exact h
    · rename_i h
      constructor
      · intro hcontra; cases hcontra
      · intro hall
        exact absurd (hall 0 (Nat.le_refl 0)) (by simpa using h)
  | N + 1 => by
    unfold capsScan
    split
    · rename_i h
      rw [capsScan_eq_neg_one_iff ok N]
      constructor
      · intro hall b hb
        rcases Nat.lt_or_ge b (N + 1) with hlt | hge
        · exact hall b (by omega)
        · have : b = N + 1 := by omega
          rw [this]
          exact h
      · intro hall b hb
        exact hall b (by omega)
    · rename_i h
      constructor
      · intro hcontra
        exfalso
        have : ((N : Int) + 1) ≥ 0 := by positivity
        omega
      · intro hall
        exact absurd (hall (N + 1) (Nat.le_refl _)) (by simpa using h)

lemma capsScan_eq_coe_iff (ok : Nat → Bool) (v : Nat) :
    ∀ N, (capsScan ok N = (v : Int) ↔
      v ≤ N ∧ ok v = false ∧ ∀ b, v < b → b ≤ N → ok b = true)
  | 0 => by
    unfold capsScan
    split
    · rename_i h
      constructor
      · intro hcontra
        exfalso
        have : (0 : Int) ≤ (v : Int) := by positivity
        omega
      · rintro ⟨hv, hfalse, -⟩
        rw [Nat.le_zero.mp hv] at hfalse
        rw [h] at hfalse
        cases hfalse
    · rename_i h
      constructor
      · intro heq
        have hv : v = 0 := by
          have := heq.symm
          omega
        subst hv
        exact ⟨Nat.le_refl 0, by simpa using h, fun b hb hb0 => by omega⟩
      · rintro ⟨hv, -, -⟩
        rw [Nat.le_zero.mp hv]
        rfl
  | N + 1 => by
    unfold capsScan
    split
    · rename_i h
      rw [capsScan_eq_coe_iff ok v N]
      constructor
      · rintro ⟨hv, hfalse, hall⟩
        refine ⟨by omega, hfalse, ?_⟩
        intro b hb hbN
        rcases Nat.lt_or_ge b (N + 1) with hlt | hge
        · exact hall b hb (by omega)
        · have : b = N + 1 := by omega
          rw [this]
          exact h
      · rintro ⟨hv, hfalse, hall⟩
        have hvN : v ≤ N := by
          rcases Nat.lt_or_ge v (N + 1) with hlt | hge
          · omega
          · exfalso
            have : v = N + 1 := by omega
            rw [this] at hfalse
            rw [h] at hfalse
            cases hfalse
        exact ⟨hvN, hfalse, fun b hb hbN => hall b hb (by omega)⟩
    · rename_i h
      constructor
      · intro heq
        have hv : v = N + 1 := by
          have : ((N : Int) + 1) = (v : Int) := heq
          omega
        subst hv
        exact ⟨Nat.le_refl _, by simpa using h, fun b hb hbN => by omega⟩
      · rintro ⟨hv, hfalse, hall⟩
        have hveq : v = N + 1 := by
          rcases Nat.lt_or_ge v (N + 1) with hlt | hge
          · exact absurd (hall (N + 1) (by omega) (Nat.le_refl _)) h
          · omega
        simp [hveq]

lemma dupScanAux_ge (chain : List Nat) : ∀ n, -1 ≤ dupScanAux chain n
  | 0 => by
    unfold dupScanAux
    split <;> omega
  | n + 1 => by
    unfold dupScanAux
    split
    · omega
    · exact dupScanAux_ge chain n

lemma dupScanAux_le (chain : List Nat) : ∀ n, dupScanAux chain n ≤ (n : Int)
  | 0 => by
    unfold dupScanAux
    split <;> omega
  | n + 1 => by
    unfold dupScanAux
    split
    · push_cast
      omega
    · have := dupScanAux_le chain n
      push_cast
      omega

lemma dupScanAux_eq_neg_one_iff (chain : List Nat) :
    ∀ n, (dupScanAux chain n = -1 ↔
      ∀ d ≤ n, chain.getD d 0 ≠ chain.getD (d + 1) 0)
  | 0 => by
    unfold dupScanAux
    split
    · rename_i h
      constructor
      · intro hcontra; cases hcontra
      · intro hall
        exact absurd h (hall 0 (Nat.le_refl 0))
    · rename_i h
      simp only [true_iff]
      intro d hd
      rw [Nat.le_zero.mp hd]
      exact h
  | n + 1 => by
    unfold dupScanAux
    split
    · rename_i h
      constructor
      · intro hcontra
        exfalso
        have : (0 : Int) ≤ (n : Int) := by positivity
        omega
      · intro hall
        exact absurd h (hall (n + 1) (Nat.le_refl _))
    · rename_i h
      rw [dupScanAux_eq_neg_one_iff chain n]
      constructor
      · intro hall d hd
        rcases Nat.lt_or_ge d (n + 1) with hlt | hge
        · exact hall d (by omega)
        · have : d = n + 1 := by omega
          rw [this]
          exact h
      · intro hall d hd
        exact hall d (by omega)

lemma dupScanAux_eq_coe_iff (chain : List Nat) (v : Nat) :
    ∀ n, (dupScanAux chain n = (v : Int) ↔
      v ≤ n ∧ chain.getD v 0 = chain.getD (v + 1) 0 ∧
        ∀ d, v < d → d ≤ n → chain.getD d 0 ≠ chain.getD (d + 1) 0)
  | 0 => by
    unfold dupScanAux
    split
    · rename_i h
      constructor
      · intro heq
        have hv : v = 0 := by omega
        subst hv
        exact ⟨Nat.le_refl 0, h, fun d hd hd0 => by omega⟩
      · rintro ⟨hv, -, -⟩
        rw [Nat.le_zero.mp hv]
        rfl
    · rename_i h
      constructor
      · intro hcontra
        exfalso
        have : (0 : Int) ≤ (v : Int) := by positivity
        omega
      · rintro ⟨hv, hdup, -⟩
        rw [Nat.le_zero.mp hv] at hdup
        exact absurd hdup h
  | n + 1 => by
    unfold dupScanAux
    split
    · rename_i h
      constructor
      · intro heq
        have hv : v = n + 1 := by
          have : ((n : Int) + 1) = (v : Int) := heq
          omega
        subst hv
        exact ⟨Nat.le_refl _, h, fun d hd hdn => by omega⟩
      · rintro ⟨hv, hdup, hall⟩
        have hveq : v = n + 1 := by
          rcases Nat.lt_or_ge v (n + 1) with hlt | hge
          · exact absurd h (hall (n + 1) (by omega) (Nat.le_refl _))
          · omega
        simp [hveq]
    · rename_i h
      rw [dupScanAux_eq_coe_iff chain v n]
      constructor
      · rintro ⟨hv, hdup, hall⟩
        refine ⟨by omega, hdup, ?_⟩
        intro d hd hdn
        rcases Nat.lt_or_ge d (n + 1) with hlt | hge
        · exact hall d hd (by omega)
        · have : d = n + 1 := by omega
          rw [this]
          exact h
      · rintro ⟨hv, hdup, hall⟩
        have hvn : v ≤ n := by
          rcases Nat.lt_or_ge v (n + 1) with hlt | hge
          · omega
          · exfalso
            have : v = n + 1 := by omega
            rw [this] at hdup
            exact absurd hdup h
        exact ⟨hvn, hdup, fun d hd hdn => hall d hd (by omega)⟩

lemma dupScanAux_nonneg_of_dup (chain : List Nat) {v : Nat} :
    ∀ {n}, v ≤ n → chain.getD v 0 = chain.getD (v + 1) 0 →
      0 ≤ dupScanAux chain n
  | 0, hv, hdup => by
    have hv0 : v = 0 := Nat.le_zero.mp hv
    subst hv0
    unfold dupScanAux
    rw [if_pos hdup]
  | n + 1, hv, hdup => by
    unfold dupScanAux
    split
    · omega
    · rename_i h
      have hvn : v ≤ n := by
        rcases Nat.lt_or_ge v (n + 1) with hlt | hge
        · omega
        · exfalso
          have : v = n + 1 := by omega
          rw [this] at hdup
          exact absurd hdup h
      exact dupScanAux_nonneg_of_dup chain hvn hdup

/-! Stability of the validator pipeline under changes below the pruned
depth.  This is the fact that makes the pruning advance sound: a chain
sharing all positions at or above the pruned depth with a rejected chain
is itself rejected. -/

lemma getD_eq_of_drop_eq {t s : List Nat} {e : Nat} (h : t.drop e = s.drop e)
    {i : Nat} (hi : e ≤ i) : t.getD i 0 = s.getD i 0 := by
  have h1 : t[i]? = (t.drop e)[i - e]? := by
    rw [List.getElem?_drop]
    congr 1
    omega
  have h2 : s[i]? = (s.drop e)[i - e]? := by
    rw [List.getElem?_drop]
    congr 1
    omega
  rw [List.getD_eq_getElem?_getD, List.getD_eq_getElem?_getD, h1, h2, h]

lemma boundaryOk_congr {α : Type} [Inhabited α] (ci : α → α → Bool)
    (cs cd : α) (cat : List (FactoryListEntry α)) {s t : List Nat} {e : Nat}
    (hlen : t.length = s.length) (hdrop : t.drop e = s.drop e) {b : Nat}
    (hb : e < b) : boundaryOk ci cs cd cat t b = boundaryOk ci cs cd cat s b := by
  show ci
      (if b = 0 then cs
        else (cat.getD (t.getD (b - 1) 0) default).src_caps)
      (if b = t.length then cd
        else (cat.getD (t.getD b 0) default).sink_caps) =
    ci
      (if b = 0 then cs
        else (cat.getD (s.getD (b - 1) 0) default).src_caps)
      (if b = s.length then cd
        else (cat.getD (s.getD b 0) default).sink_caps)
  have hb0 : ¬ b = 0 := by omega
  rw [if_neg hb0, if_neg hb0, hlen,
    getD_eq_of_drop_eq hdrop (show e ≤ b - 1 by omega)]
  by_cases hbl : b = s.length
  · rw [if_pos hbl, if_pos hbl]
  · rw [if_neg hbl, if_neg hbl, getD_eq_of_drop_eq hdrop (show e ≤ b by omega)]

lemma validate_nce_le (chain : List Nat) :
    validate_non_consecutive_elements chain ≤ (chain.length : Int) := by
  unfold validate_non_consecutive_elements
  split
  · omega
  · omega
  · rename_i n heq
    have := dupScanAux_le chain n
    rw [heq]
    push_cast
    omega

lemma validate_chain_le {α : Type} [Inhabited α] (ci : α → α → Bool)
    (cs cd : α) (cat : List (FactoryListEntry α)) (chain : List Nat) :
    gst_auto_convert2_validate_chain ci cs cd cat chain ≤ (chain.length : Int) := by
  unfold gst_auto_convert2_validate_chain
  split
  · exact capsScan_le _ chain.length
  · split
    · exact validate_nce_le chain
    · omega

lemma validate_stable {α : Type} [Inhabited α] (ci : α → α → Bool)
    (cs cd : α) (cat : List (FactoryListEntry α)) {s t : List Nat} {v : Int}
    (hlen : t.length = s.length)
    (hv : gst_auto_convert2_validate_chain ci cs cd cat s = v) (hv0 : 0 ≤ v)
    (hdrop : t.drop (prunedDepth v) = s.drop (prunedDepth v)) :
    0 ≤ gst_auto_convert2_validate_chain ci cs cd cat t := by
  lift v to Nat using hv0 with vn hvn
  by_cases hzero : vn = 0
  · -- pruned depth 0: the two chains coincide.
    subst hzero
    have hts : t = s := by
      have h0 : prunedDepth ((0 : Nat) : Int) = 0 := rfl
      rw [h0, List.drop_zero, List.drop_zero] at hdrop
      exact hdrop
    rw [hts, hv]
    exact Int.ofNat_nonneg _
  · have hpd : prunedDepth ((vn : Nat) : Int) = vn - 1 := by
      unfold prunedDepth
      rw [if_pos (by exact_mod_cast Nat.pos_of_ne_zero hzero)]
      omega
    rw [hpd] at hdrop
    unfold gst_auto_convert2_validate_chain at hv
    by_cases hcaps : validate_chain_caps ci cs cd cat s ≠ -1
    · -- the caps validator fired at boundary vn on s; the same boundary
      -- fails on t because all boundaries at index >= vn only read
      -- positions >= vn - 1, which t shares with s.
      rw [if_pos hcaps] at hv
      have hch := (capsScan_eq_coe_iff
        (boundaryOk ci cs cd cat s) vn s.length).mp hv
      obtain ⟨hvle, hfail, hok⟩ := hch
      have hcapst : validate_chain_caps ci cs cd cat t = (vn : Int) := by
        unfold validate_chain_caps
        rw [hlen]
        refine (capsScan_eq_coe_iff (boundaryOk ci cs cd cat t) vn s.length).mpr
          ⟨hvle, ?_, ?_⟩
        · rw [boundaryOk_congr ci cs cd cat hlen hdrop (show vn - 1 < vn by omega)]
          exact hfail
        · intro b hb hbn
          rw [boundaryOk_congr ci cs cd cat hlen hdrop (show vn - 1 < b by omega)]
          exact hok b hb hbn
      unfold gst_auto_convert2_validate_chain
      rw [if_pos (by rw [hcapst]; exact by omega), hcapst]
      exact Int.ofNat_nonneg vn
    · -- the caps validator passed on s, so the duplicate validator fired
      -- at position vn; t shares positions vn and vn + 1 with s, so t also
      -- holds an adjacent duplicate and is rejected by the pipeline.
      rw [if_neg hcaps] at hv
      have hnce : validate_non_consecutive_elements s = (vn : Nat) := by
        by_cases h2 : validate_non_consecutive_elements s ≠ -1
        · rw [if_pos h2] at hv
          exact hv
        · rw [if_neg h2] at hv
          exfalso
          omega
      -- extract the duplicate from the match on the chain length
      unfold validate_non_consecutive_elements at hnce
      rcases hsl : s.length with _ | _ | n
      · rw [hsl] at hnce
        simp only [] at hnce
        omega
      · rw [hsl] at hnce
        simp only [] at hnce
        omega
      · rw [hsl] at hnce
        simp only [] at hnce
        have hch := (dupScanAux_eq_coe_iff s vn n).mp hnce
        obtain ⟨hvn2, hdup, -⟩ := hch
        have hdupt : t.getD vn 0 = t.getD (vn + 1) 0 := by
          rw [getD_eq_of_drop_eq hdrop (show vn - 1 ≤ vn by omega),
            getD_eq_of_drop_eq hdrop (show vn - 1 ≤ vn + 1 by omega)]
          exact hdup
        unfold gst_auto_convert2_validate_chain
        by_cases hcapt : validate_chain_caps ci cs cd cat t ≠ -1
        · rw [if_pos hcapt]
          have := capsScan_ge (boundaryOk ci cs cd cat t) t.length
          have : -1 ≤ validate_chain_caps ci cs cd cat t := this
          omega
        · rw [if_neg hcapt]
          have hncet : 0 ≤ validate_non_consecutive_elements t := by
            unfold validate_non_consecutive_elements
            rcases htl : t.length with _ | _ | m
            · exfalso
              rw [hlen, hsl] at htl
              cases htl
            · exfalso
              rw [hlen, hsl] at htl
              cases htl
            · simp only []
              have hm : m = n := by
                rw [hlen, hsl] at htl
                omega
              subst hm
              exact dupScanAux_nonneg_of_dup t hvn2 hdupt
          split
          · exact hncet
          · omega

/-! Correctness of the pruning loop: it computes the first accepted
candidate at or after a given point of the enumeration order. -/

/-- r is the first candidate of length N, at or after position m of the
enumeration order, that the validator pipeline accepts (none when no such
candidate exists). -/
def FirstValidFrom {α : Type} [Inhabited α] (ci : α → α → Bool)
    (cs cd : α) (cat : List (FactoryListEntry α)) (N m : Nat) :
    Option (List Nat) → Prop
  | some c => ValidState cat.length N c ∧
      gst_auto_convert2_validate_chain ci cs cd cat c < 0 ∧
      m ≤ toNum cat.length c ∧
      ∀ t, ValidState cat.length N t → m ≤ toNum cat.length t →
        toNum cat.length t < toNum cat.length c →
        ¬ gst_auto_convert2_validate_chain ci cs cd cat t < 0
  | none => ∀ t, ValidState cat.length N t → m ≤ toNum cat.length t →
      ¬ gst_auto_convert2_validate_chain ci cs cd cat t < 0

lemma FirstValidFrom_some_iff {α : Type} [Inhabited α] (ci : α → α → Bool)
    (cs cd : α) (cat : List (FactoryListEntry α)) (N m : Nat) (c : List Nat) :
    FirstValidFrom ci cs cd cat N m (some c) ↔
      (ValidState cat.length N c ∧
        gst_auto_convert2_validate_chain ci cs cd cat c < 0 ∧
        m ≤ toNum cat.length c ∧
        ∀ t, ValidState cat.length N t → m ≤ toNum cat.length t →
          toNum cat.length t < toNum cat.length c →
          ¬ gst_auto_convert2_validate_chain ci cs cd cat t < 0) := Iff.rfl

lemma FirstValidFrom_none_iff {α : Type} [Inhabited α] (ci : α → α → Bool)
    (cs cd : α) (cat : List (FactoryListEntry α)) (N m : Nat) :
    FirstValidFrom ci cs cd cat N m none ↔
      ∀ t, ValidState cat.length N t → m ≤ toNum cat.length t →
        ¬ gst_auto_convert2_validate_chain ci cs cd cat t < 0 := Iff.rfl

lemma length_pos_of_ne_nil {α : Type} {cat : List α} (hcat : cat ≠ []) :
    1 ≤ cat.length := by
  cases cat with
  | nil => exact absurd rfl hcat
  | cons a l => simp

lemma prunedDepth_le {v : Int} {N : Nat} (hv : v ≤ (N : Int)) :
    prunedDepth v ≤ N := by
  unfold prunedDepth
  split <;> omega

lemma genLoopFuel_spec {α : Type} [Inhabited α] (ci : α → α → Bool)
    (cs cd : α) (cat : List (FactoryListEntry α)) (N : Nat) (hcat : cat ≠ []) :
    ∀ (fuel : Nat) (s : List Nat), ValidState cat.length N s →
      cat.length ^ N - toNum cat.length s ≤ fuel →
      ∃ r, genLoopFuel ci cs cd cat fuel s = some r ∧
        FirstValidFrom ci cs cd cat N (toNum cat.length s) r := by
  intro fuel
  induction fuel with
  | zero =>
    intro s hs hfuel
    exfalso
    have := toNum_lt (K := cat.length) hs.2
    rw [hs.1] at this
    omega
  | succ fuel ih =>
    intro s hs hfuel
    have hK1 : 1 ≤ cat.length := length_pos_of_ne_nil hcat
    by_cases hacc : gst_auto_convert2_validate_chain ci cs cd cat s < 0
    · refine ⟨some s, ?_, ?_⟩
      · unfold genLoopFuel
        rw [if_pos hacc]
      · rw [FirstValidFrom_some_iff]
        exact ⟨hs, hacc, le_refl _, fun t _ h1 h2 => by omega⟩
    · have hv0 : 0 ≤ gst_auto_convert2_validate_chain ci cs cd cat s := by omega
      have hvle : gst_auto_convert2_validate_chain ci cs cd cat s ≤ (N : Int) := by
        have := validate_chain_le ci cs cd cat s
        rw [hs.1] at this
        exact this
      have hdN : prunedDepth (gst_auto_convert2_validate_chain ci cs cd cat s) ≤ N :=
        prunedDepth_le hvle
      set d := prunedDepth (gst_auto_convert2_validate_chain ci cs cd cat s) with hd
      have hdlen : d ≤ s.length := by rw [hs.1]; exact hdN
      have hdec := toNum_take_drop (K := cat.length) (s := s) (d := d) hdlen
      cases hadv : advance_chain_generator cat.length d s with
      | none =>
        refine ⟨none, ?_, ?_⟩
        · unfold genLoopFuel
          rw [if_neg hacc, hadv]
        · rw [FirstValidFrom_none_iff]
          intro t ht hm hacct
          have hall := (advance_none_iff hs.2).mp hadv
          have hmax : toNum cat.length (s.drop d) + 1 = cat.length ^ (N - d) := by
            have := toNum_all_max hall hK1
            rwa [List.length_drop, hs.1] at this
          have hub : toNum cat.length t <
              cat.length ^ d * (toNum cat.length (s.drop d) + 1) := by
            have h1 : toNum cat.length t < cat.length ^ N := by
              have := toNum_lt ht.2
              rwa [ht.1] at this
            rw [hmax, ← pow_add]
            have heq : d + (N - d) = N := by omega
            rw [heq]
            exact h1
          have hlb : cat.length ^ d * toNum cat.length (s.drop d) ≤
              toNum cat.length t := by omega
          have hdropeq : t.drop d = s.drop d :=
            drop_eq_of_sandwich hs.2 ht.2 (by rw [hs.1, ht.1]) hdlen hlb hub
          have := validate_stable ci cs cd cat (by rw [hs.1, ht.1]) rfl hv0 hdropeq
          omega
      | some s' =>
        obtain ⟨hlen', hdig', hnum'⟩ := advance_some hs.1 hs.2 hdN hadv
        have hlt : toNum cat.length s < toNum cat.length s' :=
          advance_increases hs.1 hs.2 hdN hadv
        have hlt' : toNum cat.length s' < cat.length ^ N := by
          have := toNum_lt hdig'
          rwa [hlen'] at this
        have hfuel' : cat.length ^ N - toNum cat.length s' ≤ fuel := by omega
        obtain ⟨r, hrun, hfvf⟩ := ih s' ⟨hlen', hdig'⟩ hfuel'
        refine ⟨r, ?_, ?_⟩
        · unfold genLoopFuel
          rw [if_neg hacc, hadv]
          exact hrun
        · have hrej : ∀ t, ValidState cat.length N t →
              toNum cat.length s ≤ toNum cat.length t →
              toNum cat.length t < toNum cat.length s' →
              ¬ gst_auto_convert2_validate_chain ci cs cd cat t < 0 := by
            intro t ht h1 h2 hacct
            have hlb : cat.length ^ d * toNum cat.length (s.drop d) ≤
                toNum cat.length t := by omega
            have hub : toNum cat.length t <
                cat.length ^ d * (toNum cat.length (s.drop d) + 1) := by
              rw [← hnum']
              exact h2
            have hdropeq : t.drop d = s.drop d :=
              drop_eq_of_sandwich hs.2 ht.2 (by rw [hs.1, ht.1]) hdlen hlb hub
            have := validate_stable ci cs cd cat (by rw [hs.1, ht.1]) rfl hv0 hdropeq
            omega
          cases r with
          | some c =>
            rw [FirstValidFrom_some_iff] at hfvf ⊢
            obtain ⟨hc1, hc2, hc3, hc4⟩ := hfvf
            refine ⟨hc1, hc2, by omega, ?_⟩
            intro t ht hm hlt2
            rcases Nat.lt_or_ge (toNum cat.length t) (toNum cat.length s') with hcase | hcase
            · exact hrej t ht hm hcase
            · exact hc4 t ht hcase hlt2
          | none =>
            rw [FirstValidFrom_none_iff] at hfvf ⊢
            intro t ht hm
            rcases Nat.lt_or_ge (toNum cat.length t) (toNum cat.length s') with hcase | hcase
            · exact hrej t ht hm hcase
            · exact hfvf t ht hcase

lemma naiveAux_spec {α : Type} [Inhabited α] (ci : α → α → Bool)
    (cs cd : α) (cat : List (FactoryListEntry α)) (N : Nat) (hcat : cat ≠ []) :
    ∀ (cnt m : Nat), m + cnt = cat.length ^ N →
      FirstValidFrom ci cs cd cat N m (naiveAux ci cs cd cat N cnt m) := by
  intro cnt
  induction cnt with
  | zero =>
    intro m hm
    show FirstValidFrom ci cs cd cat N m none
    rw [FirstValidFrom_none_iff]
    intro t ht hmt
    have := toNum_lt ht.2
    rw [ht.1] at this
    omega
  | succ cnt ih =>
    intro m hm
    have hK1 : 1 ≤ cat.length := length_pos_of_ne_nil hcat
    have hmlt : m < cat.length ^ N := by omega
    have hcvalid : ValidState cat.length N (decode cat.length N m) :=
      ⟨decode_length _ _ _, decode_valid hK1 _ _⟩
    have hcnum : toNum cat.length (decode cat.length N m) = m := toNum_decode hmlt
    have hdect : ∀ t : List Nat, ValidState cat.length N t →
        toNum cat.length t = m → t = decode cat.length N m := by
      intro t ht heq
      have h1 := decode_toNum ht.2
      rw [ht.1, heq] at h1
      exact h1.symm
    unfold naiveAux
    by_cases hacc : gst_auto_convert2_validate_chain ci cs cd cat
        (decode cat.length N m) < 0
    · rw [if_pos hacc]
      rw [FirstValidFrom_some_iff]
      refine ⟨hcvalid, hacc, by omega, ?_⟩
      intro t ht h1 h2
      rw [hcnum] at h2
      omega
    · rw [if_neg hacc]
      have hnext := ih (m + 1) (by omega)
      cases hn : naiveAux ci cs cd cat N cnt (m + 1) with
      | some c =>
        rw [hn, FirstValidFrom_some_iff] at hnext
        obtain ⟨h1, h2, h3, h4⟩ := hnext
        rw [FirstValidFrom_some_iff]
        refine ⟨h1, h2, by omega, ?_⟩
        intro t ht hmt hlt
        rcases Nat.eq_or_lt_of_le hmt with heq | hlt2
        · intro hacct
          rw [hdect t ht heq.symm] at hacct
          exact hacc hacct
        · exact h4 t ht (by omega) hlt
      | none =>
        rw [hn, FirstValidFrom_none_iff] at hnext
        rw [FirstValidFrom_none_iff]
        intro t ht hmt
        rcases Nat.eq_or_lt_of_le hmt with heq | hlt2
        · intro hacct
          rw [hdect t ht heq.symm] at hacct
          exact hacc hacct
        · exact hnext t ht (by omega)

lemma FirstValidFrom_unique {α : Type} [Inhabited α] (ci : α → α → Bool)
    (cs cd : α) (cat : List (FactoryListEntry α)) (N m : Nat) :
    ∀ {r1 r2 : Option (List Nat)}, FirstValidFrom ci cs cd cat N m r1 →
      FirstValidFrom ci cs cd cat N m r2 → r1 = r2 := by
  intro r1 r2 h1 h2
  cases r1 with
  | some c1 =>
    cases r2 with
    | some c2 =>
      rw [FirstValidFrom_some_iff] at h1 h2
      obtain ⟨hv1, ha1, hm1, hmin1⟩ := h1
      obtain ⟨hv2, ha2, hm2, hmin2⟩ := h2
      rcases Nat.lt_trichotomy (toNum cat.length c1) (toNum cat.length c2)
        with hlt | heq | hgt
      · exact absurd ha1 (hmin2 c1 hv1 hm1 hlt)
      · have := toNum_injOn hv1.2 hv2.2 (by rw [hv1.1, hv2.1]) heq
        rw [this]
      · exact absurd ha2 (hmin1 c2 hv2 hm2 hgt)
    | none =>
      rw [FirstValidFrom_some_iff] at h1
      rw [FirstValidFrom_none_iff] at h2
      exact absurd h1.2.1 (h2 c1 h1.1 h1.2.2.1)
  | none =>
    cases r2 with
    | some c2 =>
      rw [FirstValidFrom_none_iff] at h1
      rw [FirstValidFrom_some_iff] at h2
      exact absurd h2.2.1 (h1 c2 h2.1 h2.2.2.1)
    | none => rfl

/-! Index-level view of the carry loop, and full enumeration at depth 0. -/

lemma getD_drop (s : List Nat) (D j : Nat) :
    (s.drop D).getD j 0 = s.getD (D + j) 0 := by
  rw [List.getD_eq_getElem?_getD, List.getD_eq_getElem?_getD, List.getElem?_drop]

lemma forall_mem_drop_iff {s : List Nat} {D : Nat} {P : Nat → Prop} :
    (∀ d ∈ s.drop D, P d) ↔ ∀ i, D ≤ i → i < s.length → P (s.getD i 0) := by
  constructor
  · intro h i hDi hi
    have hj : i - D < (s.drop D).length := by
      rw [List.length_drop]
      omega
    have hmem := List.getElem_mem hj
    have := h _ hmem
    rwa [← List.getD_eq_getElem (s.drop D) 0 hj, getD_drop,
      show D + (i - D) = i by omega] at this
  · intro h d hd
    obtain ⟨j, hj, hdj⟩ := List.mem_iff_getElem.mp hd
    have hjlen : D + j < s.length := by
      rw [List.length_drop] at hj
      omega
    have := h (D + j) (by omega) hjlen
    rwa [← getD_drop, List.getD_eq_getElem (s.drop D) 0 hj, hdj] at this

lemma advance_zero_eq (K : Nat) (s : List Nat) :
    advance_chain_generator K 0 s = advanceFrom K s := by
  unfold advance_chain_generator
  rw [List.drop_zero]
  cases advanceFrom K s with
  | none => rfl
  | some rest' => simp [List.replicate]

lemma iterAdvance_succ_of_some {K D : Nat} (n : Nat) {s s2 : List Nat}
    (h : advance_chain_generator K D s = some s2) :
    iterAdvance K D (n + 1) s = iterAdvance K D n s2 := by
  show (match advance_chain_generator K D s with
    | none => none
    | some s' => iterAdvance K D n s') = iterAdvance K D n s2
  rw [h]

lemma iterAdvance_succ_of_none {K D : Nat} (n : Nat) {s : List Nat}
    (h : advance_chain_generator K D s = none) :
    iterAdvance K D (n + 1) s = none := by
  show (match advance_chain_generator K D s with
    | none => none
    | some s' => iterAdvance K D n s') = none
  rw [h]

lemma iterAdvance_zero (K : Nat) : ∀ (n : Nat) (s : List Nat),
    (∀ d ∈ s, d < K) → toNum K s + n < K ^ s.length →
    iterAdvance K 0 n s = some (decode K s.length (toNum K s + n)) := by
  intro n
  induction n with
  | zero =>
    intro s hdig hlt
    show some s = some (decode K s.length (toNum K s + 0))
    rw [Nat.add_zero, decode_toNum hdig]
  | succ n ih =>
    intro s hdig hlt
    have hK1 : 1 ≤ K := by
      rcases Nat.eq_zero_or_pos K with h0 | h0
      · exfalso
        subst h0
        rcases s with _ | ⟨c, rest⟩
        · simp [toNum] at hlt
        · exact absurd (hdig c (by simp)) (by omega)
      · exact h0
    cases hadv : advanceFrom K s with
    | none =>
      exfalso
      have hall := (advanceFrom_eq_none_iff hdig).mp hadv
      have := toNum_all_max hall hK1
      omega
    | some s2 =>
      obtain ⟨hlen2, hdig2, hnum2⟩ := advanceFrom_some hdig hadv
      have step : iterAdvance K 0 (n + 1) s = iterAdvance K 0 n s2 :=
        iterAdvance_succ_of_some n (by rw [advance_zero_eq]; exact hadv)
      have ih2 := ih s2 hdig2 (by rw [hlen2, hnum2]; omega)
      rw [step, ih2, hlen2, hnum2]
      congr 2
      omega

lemma iterAdvance_enumerates {K : Nat} (hK1 : 1 ≤ K) (N : Nat) :
    ∀ n, n < K ^ N → iterAdvance K 0 n (List.replicate N 0) = some (decode K N n) := by
  intro n hn
  have hdig : ∀ d ∈ List.replicate N 0, d < K := by
    intro d hd
    rw [(List.mem_replicate.mp hd).2]
    omega
  have := iterAdvance_zero K n (List.replicate N 0) hdig
    (by rw [toNum_replicate_zero, List.length_replicate]; omega)
  rwa [toNum_replicate_zero, List.length_replicate, Nat.zero_add] at this

lemma iterAdvance_exhausts {K : Nat} (hK1 : 1 ≤ K) (N : Nat) :
    iterAdvance K 0 (K ^ N) (List.replicate N 0) = none := by
  have hpow : 1 ≤ K ^ N := Nat.one_le_pow N K (by omega)
  have hsplit : K ^ N = (K ^ N - 1) + 1 := by omega
  have hdig : ∀ d ∈ List.replicate N 0, d < K := by
    intro d hd
    rw [(List.mem_replicate.mp hd).2]
    omega
  have hstep : ∀ s : List Nat, (∀ d ∈ s, d < K) → toNum K s + 1 = K ^ s.length →
      iterAdvance K 0 1 s = none := by
    intro s hdigs hmax
    cases hadv : advanceFrom K s with
    | none =>
      exact iterAdvance_succ_of_none 0 (by rw [advance_zero_eq]; exact hadv)
    | some s2 =>
      exfalso
      obtain ⟨hlen2, hdig2, hnum2⟩ := advanceFrom_some hdigs hadv
      have h1 : toNum K s2 < K ^ s2.length := toNum_lt hdig2
      rw [hlen2] at h1
      omega
  have hsplit2 : ∀ (m : Nat) (s : List Nat),
      iterAdvance K 0 (m + 1) s =
        match iterAdvance K 0 m s with
        | none => none
        | some s2 => iterAdvance K 0 1 s2 := by
    intro m
    induction m with
    | zero => intro s; rfl
    | succ m ih =>
      intro s
      cases hadv : advance_chain_generator K 0 s with
      | none =>
        rw [iterAdvance_succ_of_none (m + 1) hadv, iterAdvance_succ_of_none m hadv]
      | some s2 =>
        rw [iterAdvance_succ_of_some (m + 1) hadv, iterAdvance_succ_of_some m hadv,
          ih s2]
  rcases Nat.eq_zero_or_pos (K ^ N - 1) with hz | hp
  · -- a single candidate: the first advance already exhausts the generator
    rw [hsplit, hz]
    have hnum0 : toNum K (List.replicate N 0) + 1 = K ^ (List.replicate N 0).length := by
      rw [toNum_replicate_zero, List.length_replicate]
      omega
    exact hstep _ hdig hnum0
  · rw [hsplit, hsplit2, iterAdvance_enumerates hK1 N (K ^ N - 1) (by omega)]
    have hdigd : ∀ d ∈ decode K N (K ^ N - 1), d < K := decode_valid hK1 N _
    have hnumd : toNum K (decode K N (K ^ N - 1)) = K ^ N - 1 :=
      toNum_decode (by omega)
    exact hstep _ hdigd (by rw [decode_length, hnumd]; omega)

/-! Catalog indexing: the template counting invariant of the scanning loop
and the order in which index entries accumulate. -/

lemma fptl_cons_sink {α : Type} (t : PadTemplate α) (rest : List (PadTemplate α))
    (a b : Option (PadTemplate α)) (hdir : t.direction = PadDirection.sink) :
    find_pad_templates_loop (t :: rest) a b =
      match a with
      | some _ => none
      | none => find_pad_templates_loop rest (some t) b := by
  show (match t.direction with
    | PadDirection.sink =>
      match a with
      | some _ => none
      | none => find_pad_templates_loop rest (some t) b
    | PadDirection.src =>
      match b with
      | some _ => none
      | none => find_pad_templates_loop rest a (some t)) = _
  rw [hdir]

lemma fptl_cons_src {α : Type} (t : PadTemplate α) (rest : List (PadTemplate α))
    (a b : Option (PadTemplate α)) (hdir : t.direction = PadDirection.src) :
    find_pad_templates_loop (t :: rest) a b =
      match b with
      | some _ => none
      | none => find_pad_templates_loop rest a (some t) := by
  show (match t.direction with
    | PadDirection.sink =>
      match a with
      | some _ => none
      | none => find_pad_templates_loop rest (some t) b
    | PadDirection.src =>
      match b with
      | some _ => none
      | none => find_pad_templates_loop rest a (some t)) = _
  rw [hdir]

lemma find_pad_templates_loop_spec {α : Type} :
    ∀ (ts : List (PadTemplate α)) (a b : Option (PadTemplate α)),
    (∃ snkT srcT, find_pad_templates_loop ts a b = some (some snkT, some srcT)) ↔
      (ts.countP (fun u => decide (u.direction = PadDirection.sink)) +
          (if a.isSome then 1 else 0) = 1 ∧
        ts.countP (fun u => decide (u.direction = PadDirection.src)) +
          (if b.isSome then 1 else 0) = 1)
  | [], a, b => by
    simp only [find_pad_templates_loop, List.countP_nil, Nat.zero_add]
    constructor
    · rintro ⟨snkT, srcT, heq⟩
      have h1 := Option.some.inj heq
      have ha : a = some snkT := congrArg Prod.fst h1
      have hb : b = some srcT := congrArg Prod.snd h1
      rw [ha, hb]
      simp
    · rintro ⟨ha, hb⟩
      have ha2 : a.isSome := by
        by_contra hcontra
        rw [if_neg hcontra] at ha
        cases ha
      have hb2 : b.isSome := by
        by_contra hcontra
        rw [if_neg hcontra] at hb
        cases hb
      obtain ⟨snkT, hsnk⟩ := Option.isSome_iff_exists.mp ha2
      obtain ⟨srcT, hsrc⟩ := Option.isSome_iff_exists.mp hb2
      exact ⟨snkT, srcT, by rw [hsnk, hsrc]⟩
  | t :: rest, a, b => by
    have hsome1 : ∀ x : PadTemplate α,
        (if (some x).isSome = true then 1 else 0) = 1 := fun x => rfl
    have hnone1 :
        (if (none : Option (PadTemplate α)).isSome = true then 1 else 0) = 0 := rfl
    cases hdir : t.direction with
    | sink =>
      have hcntsnk : (t :: rest).countP
            (fun u => decide (u.direction = PadDirection.sink)) =
          rest.countP (fun u => decide (u.direction = PadDirection.sink)) + 1 := by
        rw [List.countP_cons, hdir]
        simp
      have hcntsrc : (t :: rest).countP
            (fun u => decide (u.direction = PadDirection.src)) =
          rest.countP (fun u => decide (u.direction = PadDirection.src)) := by
        rw [List.countP_cons, hdir]
        simp
      rw [fptl_cons_sink t rest a b hdir, hcntsnk, hcntsrc]
      cases a with
      | some x =>
        rw [hsome1 x]
        constructor
        · rintro ⟨snkT, srcT, heq⟩
          cases heq
        · rintro ⟨ha, -⟩
          omega
      | none =>
        rw [hnone1, find_pad_templates_loop_spec rest (some t) b, hsome1 t]
    | src =>
      have hcntsnk : (t :: rest).countP
            (fun u => decide (u.direction = PadDirection.sink)) =
          rest.countP (fun u => decide (u.direction = PadDirection.sink)) := by
        rw [List.countP_cons, hdir]
        simp
      have hcntsrc : (t :: rest).countP
            (fun u => decide (u.direction = PadDirection.src)) =
          rest.countP (fun u => decide (u.direction = PadDirection.src)) + 1 := by
        rw [List.countP_cons, hdir]
        simp
      rw [fptl_cons_src t rest a b hdir, hcntsnk, hcntsrc]
      cases b with
      | some x =>
        rw [hsome1 x]
        constructor
        · rintro ⟨snkT, srcT, heq⟩
          cases heq
        · rintro ⟨-, hb⟩
          omega
      | none =>
        rw [hnone1, find_pad_templates_loop_spec rest a (some t), hsome1 t]

lemma find_pad_templates_isSome_iff {α : Type} (f : List (PadTemplate α)) :
    (find_pad_templates f).isSome ↔
      (f.countP (fun u => decide (u.direction = PadDirection.sink)) = 1 ∧
        f.countP (fun u => decide (u.direction = PadDirection.src)) = 1) := by
  have hspec := find_pad_templates_loop_spec f none none
  simp only [Option.isSome_none, if_neg, Nat.add_zero] at hspec
  constructor
  · intro hsome
    apply hspec.mp
    cases hloop : find_pad_templates_loop f none none with
    | none =>
      exfalso
      unfold find_pad_templates at hsome
      rw [hloop] at hsome
      cases hsome
    | some p =>
      obtain ⟨oa, ob⟩ := p
      cases oa with
      | none =>
        exfalso
        unfold find_pad_templates at hsome
        rw [hloop] at hsome
        cases hsome
      | some snkT =>
        cases ob with
        | none =>
          exfalso
          unfold find_pad_templates at hsome
          rw [hloop] at hsome
          cases hsome
        | some srcT => exact ⟨snkT, srcT, rfl⟩
  · intro hcount
    obtain ⟨snkT, srcT, hloop⟩ := hspec.mpr hcount
    unfold find_pad_templates
    rw [hloop]
    rfl

lemma index_factories_foldl {α : Type} :
    ∀ (fs : List (List (PadTemplate α))) (acc : List (FactoryListEntry α)),
    fs.foldl
        (fun idx f =>
          match find_pad_templates f with
          | some (snkT, srcT) => create_factory_index_entry f snkT srcT :: idx
          | none => idx)
        acc =
      (fs.filterMap (fun f => (find_pad_templates f).map
        (fun p => create_factory_index_entry f p.1 p.2))).reverse ++ acc
  | [], acc => by simp
  | f :: fs, acc => by
    rw [List.foldl_cons, List.filterMap_cons]
    cases hf : find_pad_templates f with
    | none =>
      exact index_factories_foldl fs acc
    | some p =>
      obtain ⟨snkT, srcT⟩ := p
      show List.foldl _ (create_factory_index_entry f snkT srcT :: acc) fs =
        (create_factory_index_entry f snkT srcT :: List.filterMap _ fs).reverse ++ acc
      rw [List.reverse_cons, List.append_assoc, List.singleton_append]
      exact index_factories_foldl fs _

lemma index_factories_eq {α : Type} (fs : List (List (PadTemplate α))) :
    index_factories fs =
      (fs.filterMap (fun f => (find_pad_templates f).map
        (fun p => create_factory_index_entry f p.1 p.2))).reverse := by
  unfold index_factories
  rw [index_factories_foldl fs []]
  simp

lemma mem_index_factories {α : Type} (fs : List (List (PadTemplate α)))
    (e : FactoryListEntry α) :
    e ∈ index_factories fs ↔ ∃ f ∈ fs, ∃ snkT srcT,
      find_pad_templates f = some (snkT, srcT) ∧
      e = create_factory_index_entry f snkT srcT := by
  rw [index_factories_eq, List.mem_reverse, List.mem_filterMap]
  constructor
  · rintro ⟨f, hf, hmap⟩
    cases hfp : find_pad_templates f with
    | none =>
      exfalso
      rw [hfp] at hmap
      cases hmap
    | some p =>
      obtain ⟨snkT, srcT⟩ := p
      rw [hfp] at hmap
      refine ⟨f, hf, snkT, srcT, hfp, ?_⟩
      have h2 : some (create_factory_index_entry f snkT srcT) = some e := hmap
      exact (Option.some.inj h2).symm
  · rintro ⟨f, hf, snkT, srcT, hfp, he⟩
    refine ⟨f, hf, ?_⟩
    rw [hfp, he]
    rfl

/-! Claim theorems. -/

/-- C1: for every catalog of size K >= 1, every route and every chain
length N, generate_next_chain (advancing from the validator-reported depth
decremented by one when positive, resetting all cursors below that depth)
returns the same first fully-valid chain as the naive enumerator that
visits all K ^ N candidates in generator order and returns the first one
the validator pipeline accepts; every candidate skipped by a pruning
advance is itself rejected by the validators; and generate_next_chain
reports exhaustion iff no candidate of that length is valid. -/
theorem generate_next_chain_refines {α : Type} [Inhabited α]
    (ci : α → α → Bool) (snk dst : α) (cat : List (FactoryListEntry α))
    (N : Nat) (hcat : cat ≠ []) :
    generate_next_chain ci snk dst cat N =
      some (naiveFirstValid ci snk dst cat N) ∧
    (generate_next_chain ci snk dst cat N = some none ↔
      ∀ s, ValidState cat.length N s →
        ¬ gst_auto_convert2_validate_chain ci snk dst cat s < 0) ∧
    (∀ s t s' : List Nat, ValidState cat.length N s →
      ValidState cat.length N t →
      0 ≤ gst_auto_convert2_validate_chain ci snk dst cat s →
      advance_chain_generator cat.length
        (prunedDepth (gst_auto_convert2_validate_chain ci snk dst cat s)) s =
        some s' →
      toNum cat.length s < toNum cat.length t →
      toNum cat.length t < toNum cat.length s' →
      0 ≤ gst_auto_convert2_validate_chain ci snk dst cat t) := by
  have hK1 : 1 ≤ cat.length := length_pos_of_ne_nil hcat
  have hgen : generate_next_chain ci snk dst cat N =
      genLoopFuel ci snk dst cat (cat.length ^ N) (init_chain_generator N) := by
    cases cat with
    | nil => exact absurd rfl hcat
    | cons c rest => rfl
  have hinit : ValidState cat.length N (init_chain_generator N) := by
    refine ⟨List.length_replicate N 0, ?_⟩
    intro d hd
    rw [(List.mem_replicate.mp hd).2]
    omega
  have htoNum0 : toNum cat.length (init_chain_generator N) = 0 :=
    toNum_replicate_zero cat.length N
  obtain ⟨r, hrun, hfvf⟩ := genLoopFuel_spec ci snk dst cat N hcat
    (cat.length ^ N) (init_chain_generator N) hinit (by omega)
  rw [htoNum0] at hfvf
  have hnaive : FirstValidFrom ci snk dst cat N 0
      (naiveFirstValid ci snk dst cat N) :=
    naiveAux_spec ci snk dst cat N hcat (cat.length ^ N) 0 (by omega)
  have huniq : r = naiveFirstValid ci snk dst cat N :=
    FirstValidFrom_unique ci snk dst cat N 0 hfvf hnaive
  refine ⟨by rw [hgen, hrun, huniq], ?_, ?_⟩
  · rw [hgen, hrun]
    constructor
    · intro heq
      have hr : r = none := Option.some.inj heq
      rw [hr, FirstValidFrom_none_iff] at hfvf
      exact fun s hs => hfvf s hs (Nat.zero_le _)
    · intro hall
      have hnone : FirstValidFrom ci snk dst cat N 0 none := by
        rw [FirstValidFrom_none_iff]
        exact fun t ht _ => hall t ht
      rw [FirstValidFrom_unique ci snk dst cat N 0 hfvf hnone]
  · intro s t s' hs ht hv0 hadv h1 h2
    have hvle : gst_auto_convert2_validate_chain ci snk dst cat s ≤ (N : Int) := by
      have := validate_chain_le ci snk dst cat s
      rwa [hs.1] at this
    have hdN : prunedDepth (gst_auto_convert2_validate_chain ci snk dst cat s) ≤ N :=
      prunedDepth_le hvle
    set d := prunedDepth (gst_auto_convert2_validate_chain ci snk dst cat s) with hd
    have hdlen : d ≤ s.length := by rw [hs.1]; exact hdN
    obtain ⟨hlen', hdig', hnum'⟩ := advance_some hs.1 hs.2 hdN hadv
    have hdec := toNum_take_drop (K := cat.length) (s := s) (d := d) hdlen
    have hlb : cat.length ^ d * toNum cat.length (s.drop d) ≤
        toNum cat.length t := by omega
    have hub : toNum cat.length t <
        cat.length ^ d * (toNum cat.length (s.drop d) + 1) := by
      rw [← hnum']
      exact h2
    have hdropeq : t.drop d = s.drop d :=
      drop_eq_of_sandwich hs.2 ht.2 (by rw [hs.1, ht.1]) hdlen hlb hub
    exact validate_stable ci snk dst cat (by rw [hs.1, ht.1]) rfl hv0 hdropeq

/-- C1 witness: one stage from caps 0 to caps 1 with route 0 to 1. -/
theorem generate_next_chain_refines_witness :
    generate_next_chain (fun a b : Nat => a == b) 0 1
      [⟨⟨PadDirection.sink, 0⟩, ⟨PadDirection.src, 1⟩, 0, 1, []⟩] 1 =
      some (naiveFirstValid (fun a b : Nat => a == b) 0 1
        [⟨⟨PadDirection.sink, 0⟩, ⟨PadDirection.src, 1⟩, 0, 1, []⟩] 1) :=
  (generate_next_chain_refines (fun a b : Nat => a == b) 0 1
    [⟨⟨PadDirection.sink, 0⟩, ⟨PadDirection.src, 1⟩, 0, 1, []⟩] 1 (by decide)).1

/-- C2: advance_chain_generator at starting depth D moves the cursor at
position D onward with carry (wrapped positions and every position below D
reset to the first catalog entry), and reports exhaustion exactly when
every cursor at position >= D already sits on the last catalog entry. -/
theorem advance_chain_generator_spec (K D : Nat) (s : List Nat)
    (hdig : ∀ d ∈ s, d < K) (hD : D < s.length) :
    (advance_chain_generator K D s = none ↔
      ∀ i, D ≤ i → i < s.length → s.getD i 0 = K - 1) ∧
    (∀ s', advance_chain_generator K D s = some s' →
      ∃ j, D ≤ j ∧ j < s.length ∧ s.getD j 0 + 1 < K ∧
        (∀ i, D ≤ i → i < j → s.getD i 0 = K - 1) ∧
        s' = List.replicate j 0 ++ (s.getD j 0 + 1) :: s.drop (j + 1)) := by
  constructor
  · rw [advance_none_iff hdig]
    exact forall_mem_drop_iff
  · intro s' hadv
    unfold advance_chain_generator at hadv
    cases hfrom : advanceFrom K (s.drop D) with
    | none =>
      rw [hfrom] at hadv
      cases hadv
    | some rest' =>
      rw [hfrom] at hadv
      obtain ⟨j', hj', hdig', hmax', heq'⟩ :=
        advanceFrom_some_spec (fun d hd => hdig d (List.mem_of_mem_drop hd)) hfrom
      cases hadv
      have hjlen : D + j' < s.length := by
        rw [List.length_drop] at hj'
        omega
      refine ⟨D + j', by omega, hjlen, ?_, ?_, ?_⟩
      · rw [← getD_drop]
        exact hdig'
      · intro i hDi hij
        have := hmax' (i - D) (by omega)
        rwa [getD_drop, show D + (i - D) = i by omega] at this
      · rw [heq', ← List.append_assoc, ← List.replicate_add, getD_drop,
          List.drop_drop, ← Nat.add_assoc]

/-- C2 witness: catalog of size 3, three cursors, advance from depth 1. -/
theorem advance_chain_generator_spec_witness :
    advance_chain_generator 3 1 [2, 2, 0] = some [0, 0, 1] ∧
    (advance_chain_generator 3 1 [2, 2, 0] = none ↔
      ∀ i, 1 ≤ i → i < ([2, 2, 0] : List Nat).length →
        ([2, 2, 0] : List Nat).getD i 0 = 3 - 1) :=
  ⟨by decide,
   (advance_chain_generator_spec 3 1 [2, 2, 0] (by decide) (by decide)).1⟩

/-- C3: validate_chain_caps returns -1 iff every one of the N + 1 chain
boundaries can intersect (boundary 0 pairs the chain sink caps with the
input of position 0, boundary b the output of position b - 1 with the
input of position b, boundary N the output of the last position with the
chain src caps), and otherwise returns the largest-index failing
boundary. -/
theorem validate_chain_caps_spec {α : Type} [Inhabited α] (ci : α → α → Bool)
    (snk dst : α) (cat : List (FactoryListEntry α)) (chain : List Nat) :
    (validate_chain_caps ci snk dst cat chain = -1 ↔
      ∀ b ≤ chain.length, boundaryOk ci snk dst cat chain b = true) ∧
    (∀ v : Nat, validate_chain_caps ci snk dst cat chain = (v : Int) ↔
      (v ≤ chain.length ∧ boundaryOk ci snk dst cat chain v = false ∧
        ∀ b, v < b → b ≤ chain.length →
          boundaryOk ci snk dst cat chain b = true)) :=
  ⟨capsScan_eq_neg_one_iff (boundaryOk ci snk dst cat chain) chain.length,
   fun v => capsScan_eq_coe_iff (boundaryOk ci snk dst cat chain) v chain.length⟩

/-- C4 counterexample: a one-stage catalog whose stage output does not
intersect the destination caps makes validate_chain_caps, and therefore
the combined pipeline, return 1 = chain_length for a chain of length 1,
which is neither -1 nor a depth inside [0, length - 1]. -/
theorem validate_chain_range_cex :
    gst_auto_convert2_validate_chain (fun a b : Nat => a == b) 0 2
      [⟨⟨PadDirection.sink, 0⟩, ⟨PadDirection.src, 1⟩, 0, 1, []⟩] [0] = 1 ∧
    ¬ ((1 : Int) = -1 ∨ ((0 : Int) ≤ 1 ∧ (1 : Int) ≤ 1 - 1)) := by decide

/-- C4 (amended): the pipeline runs validate_chain_caps first and
validate_non_consecutive_elements second, the first validator returning a
value other than -1 short-circuits and its value is the result; the caps
validator returns -1 or a boundary index in [0, N] (N included), the
duplicate validator returns -2 for the empty chain and otherwise -1 or a
depth in [0, N - 2]; the pipeline accepts (negative result, as
generate_next_chain tests) iff the caps validator returns -1 and the
duplicate validator returns a negative value. -/
theorem validate_chain_pipeline_spec {α : Type} [Inhabited α]
    (ci : α → α → Bool) (snk dst : α) (cat : List (FactoryListEntry α))
    (chain : List Nat) :
    (gst_auto_convert2_validate_chain ci snk dst cat chain =
      if validate_chain_caps ci snk dst cat chain ≠ -1 then
        validate_chain_caps ci snk dst cat chain
      else validate_non_consecutive_elements chain) ∧
    (-1 ≤ validate_chain_caps ci snk dst cat chain ∧
      validate_chain_caps ci snk dst cat chain ≤ (chain.length : Int)) ∧
    (chain = [] → validate_non_consecutive_elements chain = -2) ∧
    (chain ≠ [] → -1 ≤ validate_non_consecutive_elements chain ∧
      validate_non_consecutive_elements chain ≤ (chain.length : Int) - 2) ∧
    (gst_auto_convert2_validate_chain ci snk dst cat chain < 0 ↔
      (validate_chain_caps ci snk dst cat chain = -1 ∧
        validate_non_consecutive_elements chain < 0)) := by
  refine ⟨?_, ⟨capsScan_ge _ chain.length, capsScan_le _ chain.length⟩, ?_, ?_, ?_⟩
  · unfold gst_auto_convert2_validate_chain
    by_cases h1 : validate_chain_caps ci snk dst cat chain ≠ -1
    · rw [if_pos h1, if_pos h1]
    · rw [if_neg h1, if_neg h1]
      by_cases h2 : validate_non_consecutive_elements chain ≠ -1
      · rw [if_pos h2]
      · rw [if_neg h2]
        push_neg at h2
        rw [h2]
  · intro h
    rw [h]
    rfl
  · intro hne
    unfold validate_non_consecutive_elements
    split
    · rename_i h0
      exact absurd (List.eq_nil_of_length_eq_zero h0) hne
    · rename_i h1
      rw [h1]
      constructor <;> omega
    · rename_i n h2
      rw [h2]
      have hge := dupScanAux_ge chain n
      have hle := dupScanAux_le chain n
      constructor
      · exact hge
      · push_cast
        omega
  · have hge := capsScan_ge (boundaryOk ci snk dst cat chain) chain.length
    have hge2 : -1 ≤ validate_chain_caps ci snk dst cat chain := hge
    unfold gst_auto_convert2_validate_chain
    by_cases h1 : validate_chain_caps ci snk dst cat chain ≠ -1
    · rw [if_pos h1]
      constructor
      · intro hlt
        exfalso
        omega
      · rintro ⟨heq, -⟩
        exact absurd heq h1
    · rw [if_neg h1]
      push_neg at h1
      by_cases h2 : validate_non_consecutive_elements chain ≠ -1
      · rw [if_pos h2]
        exact ⟨fun hlt => ⟨h1, hlt⟩, fun h => h.2⟩
      · rw [if_neg h2]
        push_neg at h2
        constructor
        · intro _
          rw [h2]
          exact ⟨h1, by omega⟩
        · intro _
          omega

/-- C5 counterexample: the empty chain holds no adjacent duplicate, yet
validate_non_consecutive_elements returns -2 rather than the fully-valid
sentinel -1, because the initial scan depth chain_length - 2 is computed
in unsigned arithmetic and converted to int. -/
theorem validate_non_consecutive_empty_cex :
    validate_non_consecutive_elements ([] : List Nat) = -2 ∧
    ¬ (validate_non_consecutive_elements ([] : List Nat) = -1 ↔
      ∀ d : Nat, ¬ (d + 1 < ([] : List Nat).length ∧
        ([] : List Nat).getD d 0 = ([] : List Nat).getD (d + 1) 0)) := by
  constructor
  · rfl
  · intro hiff
    have h1 : validate_non_consecutive_elements ([] : List Nat) = -1 := by
      apply hiff.mpr
      intro d hd
      have := hd.1
      simp at this
    have h2 : validate_non_consecutive_elements ([] : List Nat) = -2 := rfl
    rw [h2] at h1
    cases h1

/-- C5 (amended): for every non-empty chain the duplicate validator
returns -1 iff no catalog entry occupies two consecutive positions, and
otherwise the largest depth d with chain[d] = chain[d + 1]; the empty
chain instead yields -2. -/
theorem validate_non_consecutive_spec (chain : List Nat) (hne : chain ≠ []) :
    (validate_non_consecutive_elements chain = -1 ↔
      ∀ d, d + 1 < chain.length → chain.getD d 0 ≠ chain.getD (d + 1) 0) ∧
    (∀ v : Nat, validate_non_consecutive_elements chain = (v : Int) ↔
      (v + 1 < chain.length ∧ chain.getD v 0 = chain.getD (v + 1) 0 ∧
        ∀ d, v < d → d + 1 < chain.length →
          chain.getD d 0 ≠ chain.getD (d + 1) 0)) := by
  unfold validate_non_consecutive_elements
  split
  · rename_i h0
    exact absurd (List.eq_nil_of_length_eq_zero h0) hne
  · rename_i h1
    constructor
    · constructor
      · intro _ d hd
        exfalso
        omega
      · intro _
        rfl
    · intro v
      constructor
      · intro heq
        exfalso
        omega
      · rintro ⟨hv, -, -⟩
        exfalso
        omega
  · rename_i n h2
    constructor
    · rw [dupScanAux_eq_neg_one_iff chain n]
      constructor
      · intro hall d hd
        exact hall d (by omega)
      · intro hall d hd
        exact hall d (by omega)
    · intro v
      rw [dupScanAux_eq_coe_iff chain v n]
      constructor
      · rintro ⟨hv, hdup, hall⟩
        exact ⟨by omega, hdup, fun d hd1 hd2 => hall d hd1 (by omega)⟩
      · rintro ⟨hv, hdup, hall⟩
        exact ⟨by omega, hdup, fun d hd1 hd2 => hall d hd1 (by omega)⟩

/-- C5 witness: the chain [1, 2, 2] holds its only duplicate at depth 1. -/
theorem validate_non_consecutive_spec_witness :
    ([1, 2, 2] : List Nat) ≠ [] ∧
    validate_non_consecutive_elements [1, 2, 2] = ((1 : Nat) : Int) :=
  ⟨by decide,
   ((validate_non_consecutive_spec [1, 2, 2] (by decide)).2 1).mpr
     ⟨by decide, by decide, by
       intro d h1 h2
       exfalso
       simp only [List.length_cons, List.length_nil] at h2
       omega⟩⟩

/-- C6: a factory contributes an entry to the catalog built by
index_factories iff it exposes exactly one sink pad template and exactly
one source pad template. -/
theorem factory_catalog_inclusion {α : Type} (fs : List (List (PadTemplate α)))
    (f : List (PadTemplate α)) (hf : f ∈ fs) :
    (∃ e ∈ index_factories fs, e.factory = f) ↔
      (f.countP (fun u => decide (u.direction = PadDirection.sink)) = 1 ∧
        f.countP (fun u => decide (u.direction = PadDirection.src)) = 1) := by
  rw [← find_pad_templates_isSome_iff]
  constructor
  · rintro ⟨e, he, hef⟩
    obtain ⟨f2, hf2, snkT, srcT, hfp, hee⟩ := (mem_index_factories fs e).mp he
    have hff : f2 = f := by
      rw [hee] at hef
      exact hef
    rw [← hff, hfp]
    rfl
  · intro hsome
    obtain ⟨p, hp⟩ := Option.isSome_iff_exists.mp hsome
    obtain ⟨snkT, srcT⟩ := p
    refine ⟨create_factory_index_entry f snkT srcT, ?_, rfl⟩
    exact (mem_index_factories fs _).mpr ⟨f, hf, snkT, srcT, hp, rfl⟩

/-- C6 witness: a factory with one sink and one source template is
included. -/
theorem factory_catalog_inclusion_witness :
    (∃ e ∈ index_factories
        [[(⟨PadDirection.sink, 0⟩ : PadTemplate Nat), ⟨PadDirection.src, 1⟩]],
      e.factory = [(⟨PadDirection.sink, 0⟩ : PadTemplate Nat),
        ⟨PadDirection.src, 1⟩]) ↔
    (([(⟨PadDirection.sink, 0⟩ : PadTemplate Nat), ⟨PadDirection.src, 1⟩].countP
        (fun u => decide (u.direction = PadDirection.sink)) = 1) ∧
      ([(⟨PadDirection.sink, 0⟩ : PadTemplate Nat), ⟨PadDirection.src, 1⟩].countP
        (fun u => decide (u.direction = PadDirection.src)) = 1)) :=
  factory_catalog_inclusion
    [[(⟨PadDirection.sink, 0⟩ : PadTemplate Nat), ⟨PadDirection.src, 1⟩]]
    [(⟨PadDirection.sink, 0⟩ : PadTemplate Nat), ⟨PadDirection.src, 1⟩]
    (by decide)

/-- C7 counterexample: with an empty catalog, a route whose source and
destination caps intersect, and chain length 0, generate_next_chain
returns failure (FALSE) instead of yielding the length-0 candidate as
valid, because of the early return on an empty factory index. -/
theorem generate_next_chain_empty_catalog_cex :
    generate_next_chain (fun a b : Nat => a == b) 0 0
      ([] : List (FactoryListEntry Nat)) 0 = some none ∧
    (fun a b : Nat => a == b) 0 0 = true := by decide

/-- C7 (amended): with an empty catalog generate_next_chain reports
failure for every length, including length 0; with a non-empty catalog
and intersecting route caps, the length-0 search yields the empty chain
as valid. -/
theorem generate_next_chain_empty_catalog {α : Type} [Inhabited α]
    (ci : α → α → Bool) (snk dst : α) (cat : List (FactoryListEntry α))
    (N : Nat) (hcat : cat ≠ []) (hroute : ci snk dst = true) :
    generate_next_chain ci snk dst ([] : List (FactoryListEntry α)) N =
      some none ∧
    generate_next_chain ci snk dst cat 0 = some (some []) := by
  constructor
  · rfl
  · obtain ⟨c, rest, rfl⟩ := List.exists_cons_of_ne_nil hcat
    have hb : boundaryOk ci snk dst (c :: rest) [] 0 = ci snk dst := rfl
    have hcaps : validate_chain_caps ci snk dst (c :: rest) [] = -1 := by
      show (if boundaryOk ci snk dst (c :: rest) [] 0 = true
        then (-1 : Int) else 0) = -1
      rw [hb, hroute]
      rfl
    have hval : gst_auto_convert2_validate_chain ci snk dst (c :: rest) [] = -2 := by
      unfold gst_auto_convert2_validate_chain
      rw [hcaps]
      decide
    show genLoopFuel ci snk dst (c :: rest) ((c :: rest).length ^ 0)
      (init_chain_generator 0) = some (some [])
    rw [pow_zero, show init_chain_generator 0 = ([] : List Nat) from rfl]
    unfold genLoopFuel
    rw [hval]
    norm_num

/-- C7 witness: instantiated at a singleton catalog over Nat caps. -/
theorem generate_next_chain_empty_catalog_witness :
    generate_next_chain (fun a b : Nat => a == b) 0 0
      ([] : List (FactoryListEntry Nat)) 5 = some none ∧
    generate_next_chain (fun a b : Nat => a == b) 0 0
      [⟨⟨PadDirection.sink, 0⟩, ⟨PadDirection.src, 1⟩, 0, 1, []⟩] 0 =
      some (some []) :=
  generate_next_chain_empty_catalog (fun a b : Nat => a == b) 0 0
    [⟨⟨PadDirection.sink, 0⟩, ⟨PadDirection.src, 1⟩, 0, 1, []⟩] 5
    (by decide) (by decide)

/-- C8 counterexample: over a catalog of size K = 2 with N = 2, repeated
advance at skip_from_depth = N - 1 = 1 exhausts the generator after
visiting only the two states [0, 0] and [0, 1], never reaching [1, 0]:
fewer than the K ^ N = 4 sequences the claim requires. -/
theorem full_enumeration_depth_cex :
    advance_chain_generator 2 1 (init_chain_generator 2) = some [0, 1] ∧
    advance_chain_generator 2 1 [0, 1] = none ∧
    iterAdvance 2 1 2 (init_chain_generator 2) = none ∧
    init_chain_generator 2 ≠ [1, 0] ∧ ([0, 1] : List Nat) ≠ [1, 0] ∧
    (2 : Nat) ^ 2 = 4 := by decide

/-- C8 (amended): starting from the initial state, repeated advance at
skip_from_depth = 0 visits every one of the K ^ N ordered length-N
sequences exactly once (the n-th visited state is decode n) before the
generator reaches Exhausted at step K ^ N. -/
theorem full_enumeration_spec (K N : Nat) (hK : 1 ≤ K) :
    (∀ n, n < K ^ N →
      iterAdvance K 0 n (init_chain_generator N) = some (decode K N n)) ∧
    iterAdvance K 0 (K ^ N) (init_chain_generator N) = none ∧
    (∀ s : List Nat, s.length = N → (∀ d ∈ s, d < K) →
      ∃ n, n < K ^ N ∧ iterAdvance K 0 n (init_chain_generator N) = some s ∧
        ∀ m, m < K ^ N →
          iterAdvance K 0 m (init_chain_generator N) = some s → m = n) := by
  refine ⟨iterAdvance_enumerates hK N, iterAdvance_exhausts hK N, ?_⟩
  intro s hlen hdig
  have hlt : toNum K s < K ^ N := by
    have := toNum_lt hdig
    rwa [hlen] at this
  refine ⟨toNum K s, hlt, ?_, ?_⟩
  · have h1 := iterAdvance_enumerates hK N (toNum K s) hlt
    have h2 : decode K N (toNum K s) = s := by
      rw [← hlen]
      exact decode_toNum hdig
    rw [h2] at h1
    exact h1
  · intro m hm hm2
    have h3 := iterAdvance_enumerates hK N m hm
    have h4 : some (decode K N m) = some s := by
      rw [← h3]
      exact hm2
    have hsm : decode K N m = s := Option.some.inj h4
    rw [← hsm, toNum_decode hm]

/-- C8 witness: full enumeration for K = 2, N = 2. -/
theorem full_enumeration_spec_witness :
    (1 : Nat) ≤ 2 ∧ iterAdvance 2 0 (2 ^ 2) (init_chain_generator 2) = none :=
  ⟨by decide, (full_enumeration_spec 2 2 (by decide)).2.1⟩

/-- C9: for every non-empty catalog the loop of generate_next_chain
terminates within K ^ N iterations (the fueled loop returns a definite
result with fuel K ^ N), because every successful advance strictly
increases the cursor tuple read as a mixed-radix number in which position
N - 1 is the most significant digit. -/
theorem generate_next_chain_terminates {α : Type} [Inhabited α]
    (ci : α → α → Bool) (snk dst : α) (cat : List (FactoryListEntry α))
    (N : Nat) (hcat : cat ≠ []) :
    (∃ r, genLoopFuel ci snk dst cat (cat.length ^ N)
      (init_chain_generator N) = some r) ∧
    (∀ (D : Nat) (s s' : List Nat), ValidState cat.length N s → D ≤ N →
      advance_chain_generator cat.length D s = some s' →
      toNum cat.length s < toNum cat.length s') := by
  constructor
  · have hinit : ValidState cat.length N (init_chain_generator N) := by
      refine ⟨List.length_replicate N 0, ?_⟩
      intro d hd
      rw [(List.mem_replicate.mp hd).2]
      exact length_pos_of_ne_nil hcat
    have htoNum0 : toNum cat.length (init_chain_generator N) = 0 :=
      toNum_replicate_zero cat.length N
    obtain ⟨r, hrun, -⟩ := genLoopFuel_spec ci snk dst cat N hcat
      (cat.length ^ N) (init_chain_generator N) hinit (by omega)
    exact ⟨r, hrun⟩
  · intro D s s' hs hD hadv
    exact advance_increases hs.1 hs.2 hD hadv

/-- C9 witness: the loop returns a definite result on a singleton
catalog at length 2 with fuel 1 ^ 2. -/
theorem generate_next_chain_terminates_witness :
    ∃ r, genLoopFuel (fun a b : Nat => a == b) 0 1
      ([⟨⟨PadDirection.sink, 0⟩, ⟨PadDirection.src, 1⟩, 0, 1, []⟩] :
        List (FactoryListEntry Nat))
      (([⟨⟨PadDirection.sink, 0⟩, ⟨PadDirection.src, 1⟩, 0, 1, []⟩] :
        List (FactoryListEntry Nat)).length ^ 2)
      (init_chain_generator 2) = some r :=
  (generate_next_chain_terminates (fun a b : Nat => a == b) 0 1
    [⟨⟨PadDirection.sink, 0⟩, ⟨PadDirection.src, 1⟩, 0, 1, []⟩] 2
    (by decide)).1

/-- C10: index_factories prepends each qualifying entry to the factory
index, so the catalog order seen by the chain generator is the reverse of
the enumeration order in which get_factories lists the factories. -/
theorem index_factories_reverses {α : Type} (fs : List (List (PadTemplate α))) :
    index_factories fs =
      (fs.filterMap (fun f => (find_pad_templates f).map
        (fun p => create_factory_index_entry f p.1 p.2))).reverse :=
  index_factories_eq fs

end AutoConvert2
